import Mathlib

/-!
Shallow embedding of the AskPDF RAG application (`src/app.py`).

Text is modelled as `List Char`.  The PDF-reading, embedding and hosted
chat-model collaborators are external libraries, so their observable
behaviour is modelled from the specification; each such definition says so
in its doc comment.  Everything else is translated directly from
`src/app.py`.
-/

/-- Chunker constant: `chunk_size=1000` in `get_chunks` (src/app.py). -/
def chunkSize : Nat := 1000

/-- Chunker constant: `chunk_overlap=200` in `get_chunks` (src/app.py). -/
def chunkOverlap : Nat := 200

/-- Chunker constant: `separator="\n"` in `get_chunks` (src/app.py). -/
def sepChar : Char := '\n'

/-- The last `k` characters of `l` (all of `l` when `k ≥ l.length`). -/
def lastChars (k : Nat) (l : List Char) : List Char :=
  l.drop (l.length - k)

/-- Splits text into separator-delimited segments; each segment keeps its
trailing separator character, so the segments concatenate back to the
input.  `acc` is the reversed prefix of the current segment. -/
def splitSegsAux : List Char → List Char → List (List Char)
  | acc, [] => if acc = [] then [] else [acc.reverse]
  | acc, c :: rest =>
    if c = sepChar then (acc.reverse ++ [c]) :: splitSegsAux [] rest
    else splitSegsAux (c :: acc) rest

/-- Separator-delimited segmentation of the raw text. -/
def splitSegs (raw : List Char) : List (List Char) :=
  splitSegsAux [] raw

/-- Modelled from the spec (section 4.2): a single segment longer than the
chunk size "is split at the hard size boundary regardless of separator".
`chopFuel` cuts off `chunkSize`-character pieces; `fuel` bounds the
recursion depth (any `fuel ≥ s.length / chunkSize` is enough). -/
def chopFuel : Nat → List Char → List (List Char)
  | 0, s => [s]
  | fuel + 1, s =>
    if chunkSize < s.length then
      s.take chunkSize :: chopFuel fuel (s.drop chunkSize)
    else [s]

/-- Hard split of one oversized segment into pieces of at most `chunkSize`. -/
def chop (s : List Char) : List (List Char) :=
  chopFuel s.length s

/-- Tags one segment for the merge pass: a segment within the chunk-size
budget is a single normal (`false`) item; an oversized segment is replaced
by its hard-split pieces, tagged `true` (forced hard split). -/
def tagSeg (s : List Char) : List (Bool × List Char) :=
  if s.length ≤ chunkSize then [(false, s)]
  else (chop s).map (fun p => (true, p))

/-- Tags every segment for the merge pass. -/
def tagSegs : List (List Char) → List (Bool × List Char)
  | [] => []
  | s :: rest => tagSeg s ++ tagSegs rest

/-- One produced chunk: its text, the number `ov` of leading characters
that were re-included from the end of the previous chunk (the overlap
region), and whether the chunk was created by a forced hard split of an
oversized segment. -/
structure ChunkRec where
  ov : Nat
  hard : Bool
  text : List Char
deriving DecidableEq

/-- Overlap retained when a chunk closes and segment `s` opens the next
chunk: at most `chunkOverlap`, at most the closed chunk's length, and small
enough that the new chunk still fits the `chunkSize` budget. -/
def newOv (cur s : List Char) : Nat :=
  min (min chunkOverlap cur.length) (chunkSize - s.length)

/-- Modelled from the spec (section 4.2): the merge pass of the Chunker.
Accumulates tagged segments into the current chunk `cur` (whose recorded
overlap is `ov` and hard flag is `hd`) up to the chunk-size budget; when a
segment would overflow the budget, closes the current chunk and opens a new
one that re-includes the last `newOv` characters of the closed chunk; a
hard-split piece always closes the current chunk and starts its own. -/
def merge : Nat → Bool → List Char → List (Bool × List Char) → List ChunkRec
  | ov, hd, cur, [] => if cur = [] then [] else [⟨ov, hd, cur⟩]
  | ov, hd, cur, (true, s) :: rest =>
    (if cur = [] then [] else [⟨ov, hd, cur⟩]) ++ merge 0 true s rest
  | ov, hd, cur, (false, s) :: rest =>
    if cur.length + s.length ≤ chunkSize then
      merge ov hd (cur ++ s) rest
    else
      ⟨ov, hd, cur⟩ ::
        merge (newOv cur s) false (lastChars (newOv cur s) cur ++ s) rest

/-- Modelled from the spec (sections 3 and 4.2): the Chunker
(`get_chunks` in src/app.py delegates to the text-splitter library, whose
code is external; this definition follows the spec's algorithm).  Produces
the chunk records in order. -/
def chunksCore (raw : List Char) : List ChunkRec :=
  merge 0 false [] (tagSegs (splitSegs raw))

/-- The Chunker's output: the ordered chunk texts (`get_chunks` in
src/app.py). -/
def get_chunks (raw : List Char) : List (List Char) :=
  (chunksCore raw).map ChunkRec.text

/-- A parsed PDF document: the list of its pages' extracted plain text
(extraction itself is delegated to the PDF-reading collaborator; a page
with no extractable text contributes the empty string). -/
structure PDFDocument where
  pages : List (List Char)
deriving DecidableEq

/-- An uploaded byte stream: either a valid PDF or a malformed one, on
which the PDF reader raises a parse error. -/
inductive UploadedDoc where
  | malformed : UploadedDoc
  | valid : PDFDocument → UploadedDoc
deriving DecidableEq

/-- `get_pdf_text` (src/app.py): starts from the empty accumulator and
appends each page's extracted text, iterating documents in upload order
and pages in document order, with no separator inserted. -/
def get_pdf_text (docs : List PDFDocument) : List Char :=
  docs.foldl (fun text pdf => pdf.pages.foldl (fun t page => t ++ page) text) []

/-- Error taxonomy of the spec (section 7). -/
inductive PipelineError where
  | parseError
  | emptyCorpus
  | embeddingError
  | chainError
  | generationError
deriving DecidableEq

/-- Modelled from the spec (section 4.1): opening each uploaded stream as
a PDF; a malformed stream fails with a ParseError that propagates to the
caller with no local recovery. -/
def parsePdfs : List UploadedDoc → Except PipelineError (List PDFDocument)
  | [] => .ok []
  | .malformed :: _ => .error .parseError
  | .valid d :: rest => (parsePdfs rest).map (fun l => d :: l)

/-- The vector index built by FAISS over the chunk embeddings; retrieval
is opaque to the claims, so the model keeps the indexed chunk texts. -/
structure VectorStore where
  texts : List (List Char)
deriving DecidableEq

/-- Modelled from the spec (section 4.3): `get_vectorstore` (src/app.py)
delegates to the embedding model and FAISS, whose code is external.  An
empty chunk sequence fails with EmptyCorpusError; an embedding-model
failure (oracle `embedOk = false`) fails with EmbeddingError and retains
no partial index; on success the fresh index holds exactly the chunks. -/
def get_vectorstore (embedOk : Bool) (chunks : List (List Char)) :
    Except PipelineError VectorStore :=
  if chunks = [] then .error .emptyCorpus
  else if embedOk then .ok ⟨chunks⟩
  else .error .embeddingError

/-- One (question, answer) pair of the Transcript. -/
structure ChatTurn where
  question : List Char
  answer : List Char
deriving DecidableEq

/-- The conversation chain built by `get_conversationchain` (src/app.py):
a retriever over the vector store plus the ConversationBufferMemory that
holds the chat history. -/
structure ConversationChain where
  vectorstore : VectorStore
  memory : List ChatTurn
deriving DecidableEq

/-- `get_conversationchain` (src/app.py): builds a chain over the given
vector store with a fresh, empty ConversationBufferMemory.  Constructing
the hosted-model client can fail (oracle `chainOk = false`, e.g. missing
credentials); that failure mode is modelled from the spec. -/
def get_conversationchain (chainOk : Bool) (vectorstore : VectorStore) :
    Except PipelineError ConversationChain :=
  if chainOk then .ok ⟨vectorstore, []⟩ else .error .chainError

/-- Modelled from the spec (section 4.4): invoking the conversation chain
on a question.  The hosted-model oracle `gen` gives the generated answer,
or `none` for a GenerationError; on success the (question, answer) pair is
appended to the chain's memory and the full chat history is returned; on
failure the error propagates without mutating the memory. -/
def chainCall (gen : Option (List Char)) (chain : ConversationChain)
    (q : List Char) : Except PipelineError (ConversationChain × List ChatTurn) :=
  match gen with
  | none => .error .generationError
  | some a => .ok (⟨chain.vectorstore, chain.memory ++ [⟨q, a⟩]⟩,
      chain.memory ++ [⟨q, a⟩])

/-- The page-level session state of `main` (src/app.py):
`st.session_state.conversation` and `st.session_state.chat_history`. -/
structure AppState where
  conversation : Option ConversationChain
  chat_history : Option (List ChatTurn)
deriving DecidableEq

/-- What the ask path renders. -/
inductive AskOutput where
  | noInput
  | warning : String → AskOutput
  | rendered : List ChatTurn → AskOutput
  | failure : PipelineError → AskOutput
deriving DecidableEq

/-- `handle_question` (src/app.py): invokes the conversation chain, stores
the returned chat history in session state and renders it; a chain failure
propagates without touching session state. -/
def handle_question (gen : Option (List Char)) (q : List Char)
    (chain : ConversationChain) (st : AppState) : AppState × AskOutput :=
  match chainCall gen chain q with
  | .error e => (st, .failure e)
  | .ok r => (⟨some r.1, some r.2⟩, .rendered r.2)

/-- The ask path of `main` (src/app.py lines 92-99): nothing happens on an
empty input; on a submitted question, warns when no conversation chain
exists, otherwise runs `handle_question`.  The `Bool` records whether the
conversation chain (retrieval plus hosted chat model) was invoked. -/
def askStep (gen : Option (List Char)) (q : List Char) (st : AppState) :
    AppState × AskOutput × Bool :=
  if q = [] then (st, .noInput, false)
  else
    match st.conversation with
    | none => (st, .warning "Please upload and process your documents first.", false)
    | some chain => ((handle_question gen q chain st).1,
        (handle_question gen q chain st).2, true)

/-- Outcome of the process path. -/
inductive ProcessOutput where
  | warning : String → ProcessOutput
  | failure : PipelineError → ProcessOutput
  | success
deriving DecidableEq

/-- The process path of `main` (src/app.py lines 101-120): an empty upload
list warns and invokes nothing; otherwise runs `get_pdf_text` →
`get_chunks` → `get_vectorstore` → `get_conversationchain` and stores the
new chain in session state only when every stage succeeds (a raised error
aborts the run before the assignment).  The `Bool` records whether the
pipeline was invoked. -/
def processStep (embedOk chainOk : Bool) (docs : List UploadedDoc)
    (st : AppState) : AppState × ProcessOutput × Bool :=
  if docs = [] then
    (st, .warning "Please upload at least one PDF document.", false)
  else
    match parsePdfs docs with
    | .error e => (st, .failure e, true)
    | .ok pdfs =>
      match get_vectorstore embedOk (get_chunks (get_pdf_text pdfs)) with
      | .error e => (st, .failure e, true)
      | .ok vs =>
        match get_conversationchain chainOk vs with
        | .error e => (st, .failure e, true)
        | .ok chain => (⟨some chain, st.chat_history⟩, .success, true)

/-- A user action in one session, together with the collaborator oracles
that decide the external calls made while handling it. -/
inductive Event where
  | ask : Option (List Char) → List Char → Event
  | process : Bool → Bool → List UploadedDoc → Event
deriving DecidableEq

/-- The session state reached after one user action. -/
def stepEv (st : AppState) : Event → AppState
  | .ask gen q => (askStep gen q st).1
  | .process embedOk chainOk docs => (processStep embedOk chainOk docs st).1

/-- The session state reached after a sequence of user actions. -/
def runEvents (evs : List Event) (st : AppState) : AppState :=
  evs.foldl stepEv st

/-- The Transcript: the ChatTurns held by the current conversation chain's
memory (empty when no chain exists). -/
def transcriptOf (st : AppState) : List ChatTurn :=
  match st.conversation with
  | none => []
  | some chain => chain.memory

/-- A concrete well-formed uploaded document used by concrete instances. -/
def exDoc : UploadedDoc := .valid ⟨[['h', 'i']]⟩

/-- The initial session state: no chain, no chat history. -/
def st0 : AppState := ⟨none, none⟩

theorem splitSegsAux_flatten (l acc : List Char) :
    (splitSegsAux acc l).flatten = acc.reverse ++ l := by
  induction l generalizing acc with
  | nil => by_cases h : acc = [] <;> simp [splitSegsAux, h]
  | cons c rest ih =>
    by_cases h : c = sepChar
    · simp [splitSegsAux, h, ih]
    · simp [splitSegsAux, h, ih]

theorem splitSegs_flatten (raw : List Char) : (splitSegs raw).flatten = raw := by
  simpa using splitSegsAux_flatten raw []

theorem chopFuel_flatten (fuel : Nat) (s : List Char) :
    (chopFuel fuel s).flatten = s := by
  induction fuel generalizing s with
  | zero => simp [chopFuel]
  | succ n ih =>
    by_cases h : chunkSize < s.length
    · simp [chopFuel, h, ih]
    · simp [chopFuel, h]

theorem chop_flatten (s : List Char) : (chop s).flatten = s :=
  chopFuel_flatten s.length s

theorem chopFuel_length (fuel : Nat) (s : List Char)
    (h : s.length ≤ chunkSize * (fuel + 1)) :
    ∀ p ∈ chopFuel fuel s, p.length ≤ chunkSize := by
  induction fuel generalizing s with
  | zero =>
    intro p hp
    simp [chopFuel] at hp
    subst hp
    simpa using h
  | succ n ih =>
    intro p hp
    by_cases hlt : chunkSize < s.length
    · simp [chopFuel, hlt] at hp
      rcases hp with hp | hp
      · subst hp
        simp
      · refine ih (s.drop chunkSize) ?_ p hp
        simp only [List.length_drop, chunkSize] at h ⊢
        omega
    · simp [chopFuel, hlt] at hp
      subst hp
      exact Nat.le_of_not_lt hlt

theorem chop_length (s : List Char) : ∀ p ∈ chop s, p.length ≤ chunkSize := by
  refine chopFuel_length s.length s ?_
  simp only [chunkSize]
  omega

theorem tagSeg_flatten (s : List Char) :
    ((tagSeg s).map Prod.snd).flatten = s := by
  by_cases h : s.length ≤ chunkSize
  · simp [tagSeg, h]
  · simp [tagSeg, h, List.map_map, Function.comp, chop_flatten]

theorem tagSeg_snd_length (s : List Char) :
    ∀ bp ∈ tagSeg s, bp.2.length ≤ chunkSize := by
  intro bp hbp
  by_cases h : s.length ≤ chunkSize
  · simp [tagSeg, h] at hbp
    subst hbp
    exact h
  · simp [tagSeg, h] at hbp
    obtain ⟨p, hp, rfl⟩ := hbp
    exact chop_length s p hp

theorem tagSegs_flatten (segs : List (List Char)) :
    ((tagSegs segs).map Prod.snd).flatten = segs.flatten := by
  induction segs with
  | nil => simp [tagSegs]
  | cons s rest ih => simp [tagSegs, tagSeg_flatten, ih]

theorem tagSegs_snd_length (segs : List (List Char)) :
    ∀ bp ∈ tagSegs segs, bp.2.length ≤ chunkSize := by
  induction segs with
  | nil => simp [tagSegs]
  | cons s rest ih =>
    intro bp hbp
    simp only [tagSegs, List.mem_append] at hbp
    rcases hbp with h | h
    · exact tagSeg_snd_length s bp h
    · exact ih bp h

theorem lastChars_length (k : Nat) (l : List Char) (h : k ≤ l.length) :
    (lastChars k l).length = k := by
  simp [lastChars]
  omega

theorem newOv_le_overlap (cur s : List Char) : newOv cur s ≤ chunkOverlap := by
  unfold newOv
  omega

theorem newOv_le_length (cur s : List Char) : newOv cur s ≤ cur.length := by
  unfold newOv
  omega

theorem merge_flatten (tsegs : List (Bool × List Char)) :
    ∀ (ov : Nat) (hd : Bool) (cur : List Char), ov ≤ cur.length →
      ((merge ov hd cur tsegs).map (fun c => c.text.drop c.ov)).flatten
        = cur.drop ov ++ (tsegs.map Prod.snd).flatten := by
  induction tsegs with
  | nil =>
    intro ov hd cur hov
    by_cases h : cur = []
    · subst h
      simp [merge]
    · simp [merge, h]
  | cons bs rest ih =>
    obtain ⟨b, s⟩ := bs
    intro ov hd cur hov
    cases b
    · by_cases hfit : cur.length + s.length ≤ chunkSize
      · rw [show merge ov hd cur ((false, s) :: rest) = merge ov hd (cur ++ s) rest
          from by simp [merge, hfit]]
        rw [ih ov hd (cur ++ s) (le_trans hov (by simp))]
        rw [List.drop_append_of_le_length hov]
        simp
      · have hk1 : newOv cur s ≤ cur.length := newOv_le_length cur s
        have hlen : (lastChars (newOv cur s) cur).length = newOv cur s :=
          lastChars_length _ _ hk1
        rw [show merge ov hd cur ((false, s) :: rest)
              = ⟨ov, hd, cur⟩ :: merge (newOv cur s) false
                  (lastChars (newOv cur s) cur ++ s) rest
          from by simp [merge, hfit]]
        simp only [List.map_cons, List.flatten_cons]
        rw [ih (newOv cur s) false (lastChars (newOv cur s) cur ++ s)
          (by rw [List.length_append, hlen]; omega)]
        rw [List.drop_left' hlen]
    · rw [show merge ov hd cur ((true, s) :: rest)
            = (if cur = [] then [] else [⟨ov, hd, cur⟩]) ++ merge 0 true s rest
        from by simp [merge]]
      rw [List.map_append, List.flatten_append]
      rw [ih 0 true s (Nat.zero_le _)]
      by_cases h : cur = []
      · subst h
        have hov0 : ov = 0 := Nat.le_zero.mp (by simpa using hov)
        subst hov0
        simp
      · simp [h]

theorem merge_sizes (tsegs : List (Bool × List Char)) :
    ∀ (ov : Nat) (hd : Bool) (cur : List Char), cur.length ≤ chunkSize →
      (∀ bp ∈ tsegs, bp.2.length ≤ chunkSize) →
      ∀ c ∈ merge ov hd cur tsegs, c.text.length ≤ chunkSize := by
  induction tsegs with
  | nil =>
    intro ov hd cur hcur _ c hc
    by_cases h : cur = [] <;> simp [merge, h] at hc
    subst hc
    exact hcur
  | cons bs rest ih =>
    obtain ⟨b, s⟩ := bs
    intro ov hd cur hcur hseg c hc
    have hs : s.length ≤ chunkSize := hseg (b, s) (by simp)
    have hrest : ∀ bp ∈ rest, bp.2.length ≤ chunkSize :=
      fun bp hbp => hseg bp (by simp [hbp])
    cases b
    · by_cases hfit : cur.length + s.length ≤ chunkSize
      · rw [show merge ov hd cur ((false, s) :: rest) = merge ov hd (cur ++ s) rest
          from by simp [merge, hfit]] at hc
        exact ih ov hd (cur ++ s) (by simpa using hfit) hrest c hc
      · rw [show merge ov hd cur ((false, s) :: rest)
              = ⟨ov, hd, cur⟩ :: merge (newOv cur s) false
                  (lastChars (newOv cur s) cur ++ s) rest
          from by simp [merge, hfit]] at hc
        rcases List.mem_cons.mp hc with h | h
        · subst h
          exact hcur
        · refine ih (newOv cur s) false (lastChars (newOv cur s) cur ++ s) ?_ hrest c h
          rw [List.length_append, lastChars_length _ _ (newOv_le_length cur s)]
          have := newOv_le_overlap cur s
          unfold newOv
          omega
    · rw [show merge ov hd cur ((true, s) :: rest)
            = (if cur = [] then [] else [⟨ov, hd, cur⟩]) ++ merge 0 true s rest
        from by simp [merge]] at hc
      rcases List.mem_append.mp hc with h | h
      · by_cases hcur0 : cur = [] <;> simp [hcur0] at h
        subst h
        exact hcur
      · exact ih 0 true s hs hrest c h

theorem merge_first (tsegs : List (Bool × List Char)) :
    ∀ (ov : Nat) (hd : Bool) (cur : List Char), cur ≠ [] →
      ∃ t tl, merge ov hd cur tsegs = ChunkRec.mk ov hd (cur ++ t) :: tl := by
  induction tsegs with
  | nil =>
    intro ov hd cur h
    exact ⟨[], [], by simp [merge, h]⟩
  | cons bs rest ih =>
    obtain ⟨b, s⟩ := bs
    intro ov hd cur h
    cases b
    · by_cases hfit : cur.length + s.length ≤ chunkSize
      · obtain ⟨t, tl, heq⟩ := ih ov hd (cur ++ s) (by simp [h])
        exact ⟨s ++ t, tl, by simp [merge, hfit, heq]⟩
      · exact ⟨[], merge (newOv cur s) false (lastChars (newOv cur s) cur ++ s) rest,
          by simp [merge, hfit]⟩
    · exact ⟨[], merge 0 true s rest, by simp [merge, h]⟩

theorem merge_firstHard (tsegs : List (Bool × List Char)) :
    ∀ (ov : Nat) (cur : List Char) (d : ChunkRec) (tl : List ChunkRec),
      merge ov true cur tsegs = d :: tl → d.hard = true := by
  induction tsegs with
  | nil =>
    intro ov cur d tl h
    by_cases hc : cur = [] <;> simp [merge, hc] at h
    rw [← h.1]
  | cons bs rest ih =>
    obtain ⟨b, s⟩ := bs
    intro ov cur d tl h
    cases b
    · by_cases hfit : cur.length + s.length ≤ chunkSize
      · rw [show merge ov true cur ((false, s) :: rest) = merge ov true (cur ++ s) rest
          from by simp [merge, hfit]] at h
        exact ih ov (cur ++ s) d tl h
      · rw [show merge ov true cur ((false, s) :: rest)
              = ⟨ov, true, cur⟩ :: merge (newOv cur s) false
                  (lastChars (newOv cur s) cur ++ s) rest
          from by simp [merge, hfit]] at h
        rw [← (List.cons.injEq _ _ _ _ |>.mp h).1]
    · by_cases hc : cur = []
      · rw [show merge ov true cur ((true, s) :: rest) = merge 0 true s rest
          from by simp [merge, hc]] at h
        exact ih 0 s d tl h
      · rw [show merge ov true cur ((true, s) :: rest)
              = ⟨ov, true, cur⟩ :: merge 0 true s rest
          from by simp [merge, hc]] at h
        rw [← (List.cons.injEq _ _ _ _ |>.mp h).1]

/-- The overlap contract between a chunk `c` and its immediate successor
`d`: unless `d` was created by a forced hard split, the first `d.ov`
characters of `d` are exactly the last `d.ov` characters of `c`, `d.ov` is
at most the configured overlap, and `d.ov` is the full
`min chunkOverlap c.text.length` unless the chunk-size budget forced it
smaller (in which case `d` is exactly full). -/
def overlapOk (c d : ChunkRec) : Prop :=
  d.hard = false →
    d.ov ≤ chunkOverlap ∧ d.ov ≤ c.text.length ∧
    d.text.take d.ov = lastChars d.ov c.text ∧
    (d.ov = min chunkOverlap c.text.length ∨ d.text.length = chunkSize)

theorem merge_chain (tsegs : List (Bool × List Char)) :
    ∀ (ov : Nat) (hd : Bool) (cur : List Char), cur.length ≤ chunkSize →
      (∀ bp ∈ tsegs, bp.2.length ≤ chunkSize) →
      List.Chain' overlapOk (merge ov hd cur tsegs) := by
  induction tsegs with
  | nil =>
    intro ov hd cur _ _
    by_cases h : cur = [] <;> simp [merge, h]
  | cons bs rest ih =>
    obtain ⟨b, s⟩ := bs
    intro ov hd cur hcur hseg
    have hs : s.length ≤ chunkSize := hseg (b, s) (by simp)
    have hrest : ∀ bp ∈ rest, bp.2.length ≤ chunkSize :=
      fun bp hbp => hseg bp (by simp [hbp])
    cases b
    · by_cases hfit : cur.length + s.length ≤ chunkSize
      · rw [show merge ov hd cur ((false, s) :: rest) = merge ov hd (cur ++ s) rest
          from by simp [merge, hfit]]
        exact ih ov hd (cur ++ s) (by simpa using hfit) hrest
      · have hk1 : newOv cur s ≤ cur.length := newOv_le_length cur s
        have hk2 : newOv cur s ≤ chunkOverlap := newOv_le_overlap cur s
        have hlen : (lastChars (newOv cur s) cur).length = newOv cur s :=
          lastChars_length _ _ hk1
        have hslen : 1 ≤ s.length := by
          simp only [chunkSize] at hcur hfit
          omega
        have hsne : s ≠ [] := by
          intro h0
          rw [h0] at hslen
          simp at hslen
        have hcne : lastChars (newOv cur s) cur ++ s ≠ [] := by
          simp [hsne]
        have hclen : (lastChars (newOv cur s) cur ++ s).length
            = newOv cur s + s.length := by
          rw [List.length_append, hlen]
        have hclen' : (lastChars (newOv cur s) cur ++ s).length ≤ chunkSize := by
          rw [hclen]
          unfold newOv
          omega
        obtain ⟨t, tl, heq⟩ :=
          merge_first rest (newOv cur s) false (lastChars (newOv cur s) cur ++ s) hcne
        rw [show merge ov hd cur ((false, s) :: rest)
              = ⟨ov, hd, cur⟩ :: merge (newOv cur s) false
                  (lastChars (newOv cur s) cur ++ s) rest
          from by simp [merge, hfit]]
        rw [heq]
        apply List.Chain'.cons
        · intro _
          refine ⟨hk2, hk1, ?_, ?_⟩
          · show ((lastChars (newOv cur s) cur ++ s) ++ t).take (newOv cur s)
              = lastChars (newOv cur s) cur
            rw [List.append_assoc, List.take_left' hlen]
          · by_cases hcap : min chunkOverlap cur.length ≤ chunkSize - s.length
            · left
              show newOv cur s = min chunkOverlap cur.length
              unfold newOv
              omega
            · right
              have hkeq : newOv cur s = chunkSize - s.length := by
                unfold newOv
                omega
              have hfull : (lastChars (newOv cur s) cur ++ s).length = chunkSize := by
                rw [hclen, hkeq]
                omega
              have hmem : ChunkRec.mk (newOv cur s) false
                  ((lastChars (newOv cur s) cur ++ s) ++ t)
                  ∈ merge (newOv cur s) false (lastChars (newOv cur s) cur ++ s) rest := by
                rw [heq]
                exact List.mem_cons_self _ _
              have hle := merge_sizes rest (newOv cur s) false
                (lastChars (newOv cur s) cur ++ s) hclen' hrest _ hmem
              show ((lastChars (newOv cur s) cur ++ s) ++ t).length = chunkSize
              simp only [List.length_append] at hle ⊢
              simp only [List.length_append] at hfull
              omega
        · rw [← heq]
          exact ih (newOv cur s) false (lastChars (newOv cur s) cur ++ s) hclen' hrest
    · by_cases hc : cur = []
      · rw [show merge ov hd cur ((true, s) :: rest) = merge 0 true s rest
          from by simp [merge, hc]]
        exact ih 0 true s hs hrest
      · rw [show merge ov hd cur ((true, s) :: rest)
              = ⟨ov, hd, cur⟩ :: merge 0 true s rest
          from by simp [merge, hc]]
        apply List.chain'_cons'.mpr
        constructor
        · intro y hy
          match h2 : merge 0 true s rest with
          | [] =>
            rw [h2] at hy
            simp at hy
          | d :: tl =>
            rw [h2] at hy
            simp at hy
            subst hy
            intro hdf
            rw [merge_firstHard rest 0 s d tl h2] at hdf
            exact absurd hdf (by simp)
        · exact ih 0 true s hs hrest

/-- C3: for every RawText string, concatenating in order all Chunks
produced by the Chunker, with each chunk's overlap region with its
predecessor dropped, reconstructs RawText exactly. -/
theorem chunks_reconstruct_raw_text (raw : List Char) :
    ((chunksCore raw).map (fun c => c.text.drop c.ov)).flatten = raw := by
  unfold chunksCore
  rw [merge_flatten (tagSegs (splitSegs raw)) 0 false [] (by simp)]
  simp [tagSegs_flatten, splitSegs_flatten]

/-- C4: every Chunk produced by the Chunker has length at most the
configured chunk size (1000 characters).  Under the spec's algorithm an
oversized separator-delimited segment is hard-split at the size boundary,
so the bound holds with no exception at all, which entails the claim. -/
theorem chunk_length_le_chunkSize (raw : List Char) (c : List Char)
    (h : c ∈ get_chunks raw) : c.length ≤ chunkSize := by
  unfold get_chunks at h
  obtain ⟨cr, hcr, rfl⟩ := List.mem_map.mp h
  exact merge_sizes _ 0 false [] (by simp) (tagSegs_snd_length _) cr hcr

theorem chunk_length_le_chunkSize_witness :
    (['h', 'i'] ∈ get_chunks ['h', 'i'])
      ∧ (['h', 'i'] : List Char).length ≤ chunkSize :=
  ⟨by decide, chunk_length_le_chunkSize ['h', 'i'] ['h', 'i'] (by decide)⟩

/-- C5: for every RawText string and every pair of adjacent chunks where
the successor was not created by a forced hard split of an oversized
segment, the last at-most-200 characters of the predecessor appear as an
overlapping span at the start of the successor (`overlapOk`). -/
theorem chunk_overlap_chain (raw : List Char) :
    List.Chain' overlapOk (chunksCore raw) := by
  unfold chunksCore
  exact merge_chain _ 0 false [] (by simp) (tagSegs_snd_length _)

theorem foldl_append_chars (pages : List (List Char)) :
    ∀ init : List Char,
      pages.foldl (fun t page => t ++ page) init = init ++ pages.flatten := by
  induction pages with
  | nil => intro init; simp
  | cons p rest ih => intro init; simp [ih]

theorem foldl_flatten_docs (f : PDFDocument → List Char)
    (docs : List PDFDocument) :
    ∀ init : List Char,
      docs.foldl (fun t d => t ++ f d) init = init ++ (docs.map f).flatten := by
  induction docs with
  | nil => intro init; simp
  | cons d rest ih => intro init; simp [ih]

/-- C6: for every ordered list of valid PDF documents, the Ingestor
returns exactly the concatenation of each page's extracted text, iterating
documents in upload order and pages in document order, with no separator
inserted between pages or documents. -/
theorem get_pdf_text_eq_flatten (docs : List PDFDocument) :
    get_pdf_text docs = (docs.map (fun d => d.pages.flatten)).flatten := by
  have hfun : ∀ (text : List Char) (pdf : PDFDocument),
      pdf.pages.foldl (fun t page => t ++ page) text = text ++ pdf.pages.flatten :=
    fun text pdf => foldl_append_chars pdf.pages text
  unfold get_pdf_text
  simp only [hfun]
  simpa using foldl_flatten_docs (fun d => d.pages.flatten) docs []

/-- C10: applied to the empty document list, the Ingestor is total and
returns the empty string, opening no PDF. -/
theorem get_pdf_text_nil : get_pdf_text [] = [] := rfl

/-- C1: with no successful process yet (conversation chain absent),
submitting any question warns "Please upload and process your documents
first.", does not invoke retrieval or the hosted chat model (`false` in
the result), and leaves the session state — hence the Transcript —
unchanged. -/
theorem ask_without_index_warns (gen : Option (List Char)) (q : List Char)
    (st : AppState) (hq : q ≠ []) (hc : st.conversation = none) :
    askStep gen q st
      = (st, .warning "Please upload and process your documents first.", false) := by
  simp [askStep, hq, hc]

theorem ask_without_index_warns_witness :
    (['x'] : List Char) ≠ []
      ∧ askStep none ['x'] st0
          = (st0, .warning "Please upload and process your documents first.", false) :=
  ⟨by decide, ask_without_index_warns none ['x'] st0 (by decide) rfl⟩

/-- C9: triggering process with an empty document list warns "Please
upload at least one PDF document.", invokes no pipeline component
(`false` in the result), and leaves the session state — hence the vector
index — unchanged. -/
theorem process_empty_docs_warns (embedOk chainOk : Bool) (st : AppState) :
    processStep embedOk chainOk [] st
      = (st, .warning "Please upload at least one PDF document.", false) := rfl

/-- C2: for every non-empty document list, a failure at any stage of
process (ingestion, embedding/index construction, or chain construction)
leaves the session state unchanged; the state is replaced only when every
stage succeeds. -/
theorem process_failure_preserves_state (embedOk chainOk : Bool)
    (docs : List UploadedDoc) (st : AppState) (hd : docs ≠ []) :
    (∀ e, (processStep embedOk chainOk docs st).2.1 = .failure e →
        (processStep embedOk chainOk docs st).1 = st)
      ∧ ((processStep embedOk chainOk docs st).1 ≠ st →
        (processStep embedOk chainOk docs st).2.1 = .success) := by
  unfold processStep
  rw [if_neg hd]
  split
  · simp
  · split
    · simp
    · split
      · simp
      · simp

theorem process_failure_preserves_state_witness :
    ([UploadedDoc.malformed] ≠ ([] : List UploadedDoc))
      ∧ ((∀ e, (processStep true true [.malformed] st0).2.1 = .failure e →
            (processStep true true [.malformed] st0).1 = st0)
        ∧ ((processStep true true [.malformed] st0).1 ≠ st0 →
            (processStep true true [.malformed] st0).2.1 = .success)) :=
  ⟨by decide, process_failure_preserves_state true true [.malformed] st0 (by decide)⟩

/-- C7: with a conversation chain present and a submitted question, a
successful ask appends exactly one ChatTurn (the new question/answer pair)
at the end of the Transcript; on GenerationError the session state — hence
the Transcript — is unchanged, with no partial turn recorded. -/
theorem ask_appends_one_turn (gen : Option (List Char)) (q : List Char)
    (st : AppState) (chain : ConversationChain) (hq : q ≠ [])
    (hc : st.conversation = some chain) :
    (∀ a, gen = some a →
        transcriptOf (askStep gen q st).1 = transcriptOf st ++ [⟨q, a⟩])
      ∧ (gen = none → (askStep gen q st).1 = st) := by
  constructor
  · intro a ha
    subst ha
    simp [askStep, hq, hc, handle_question, chainCall, transcriptOf]
  · intro h
    subst h
    simp [askStep, hq, hc, handle_question, chainCall]

theorem ask_appends_one_turn_witness :
    (['x'] : List Char) ≠ []
      ∧ ((∀ a, (some ['y'] : Option (List Char)) = some a →
            transcriptOf (askStep (some ['y']) ['x']
                ⟨some ⟨⟨[['h', 'i']]⟩, []⟩, none⟩).1
              = transcriptOf (⟨some ⟨⟨[['h', 'i']]⟩, []⟩, none⟩ : AppState)
                  ++ [⟨['x'], a⟩])
        ∧ ((some ['y'] : Option (List Char)) = none →
            (askStep (some ['y']) ['x'] ⟨some ⟨⟨[['h', 'i']]⟩, []⟩, none⟩).1
              = ⟨some ⟨⟨[['h', 'i']]⟩, []⟩, none⟩)) :=
  ⟨by decide, ask_appends_one_turn (some ['y']) ['x']
    ⟨some ⟨⟨[['h', 'i']]⟩, []⟩, none⟩ ⟨⟨[['h', 'i']]⟩, []⟩ (by decide) rfl⟩

theorem processStep_state_shape (embedOk chainOk : Bool)
    (docs : List UploadedDoc) (st : AppState) :
    (processStep embedOk chainOk docs st).1 = st
      ∨ ∃ vs, (processStep embedOk chainOk docs st).1
          = ⟨some ⟨vs, []⟩, st.chat_history⟩ := by
  unfold processStep
  by_cases hd : docs = []
  · left
    simp [hd]
  · rw [if_neg hd]
    split
    · left
      rfl
    · next pdfs heqp =>
      split
      · left
        rfl
      · next vs heqv =>
        split
        · left
          rfl
        · next chain heq =>
          right
          unfold get_conversationchain at heq
          by_cases hok : chainOk
          · rw [if_pos hok] at heq
            obtain rfl : ConversationChain.mk vs [] = chain := Except.ok.inj heq
            exact ⟨vs, rfl⟩
          · rw [if_neg hok] at heq
            cases heq

/-- C8 is refuted on the code: a ChatTurn recorded by a successful ask is
no longer in the Transcript after a later successful process, because
`get_conversationchain` builds a fresh empty ConversationBufferMemory and
`main` replaces `st.session_state.conversation` with the new chain. -/
theorem transcript_reset_counterexample :
    (⟨['x'], ['y']⟩ : ChatTurn)
        ∈ transcriptOf (runEvents
            [.process true true [exDoc], .ask (some ['y']) ['x']] st0)
      ∧ (processStep true true [exDoc]
          (runEvents [.process true true [exDoc], .ask (some ['y']) ['x']] st0)).2.1
            = .success
      ∧ (⟨['x'], ['y']⟩ : ChatTurn)
        ∉ transcriptOf (runEvents
            [.process true true [exDoc], .ask (some ['y']) ['x'],
              .process true true [exDoc]] st0) := by
  decide

/-- C8 (amended): the Transcript is append-only across `ask` actions — an
ask never removes or replaces an existing ChatTurn — while a `process`
action either leaves the Transcript unchanged (warning or stage failure)
or, on success, installs a fresh conversation chain whose Transcript is
empty, discarding previously recorded ChatTurns. -/
theorem transcript_step_behavior (st : AppState) (gen : Option (List Char))
    (q : List Char) (embedOk chainOk : Bool) (docs : List UploadedDoc) :
    (∃ ext, transcriptOf (stepEv st (.ask gen q)) = transcriptOf st ++ ext)
      ∧ (transcriptOf (stepEv st (.process embedOk chainOk docs))
            = transcriptOf st
          ∨ transcriptOf (stepEv st (.process embedOk chainOk docs)) = []) := by
  constructor
  · show ∃ ext, transcriptOf (askStep gen q st).1 = transcriptOf st ++ ext
    by_cases hq : q = []
    · exact ⟨[], by simp [askStep, hq]⟩
    · cases hc : st.conversation with
      | none => exact ⟨[], by simp [askStep, hq, hc]⟩
      | some chain =>
        cases gen with
        | none =>
          exact ⟨[], by simp [askStep, hq, hc, handle_question, chainCall]⟩
        | some a =>
          exact ⟨[⟨q, a⟩],
            by simp [askStep, hq, hc, handle_question, chainCall, transcriptOf]⟩
  · show transcriptOf (processStep embedOk chainOk docs st).1 = transcriptOf st
        ∨ transcriptOf (processStep embedOk chainOk docs st).1 = []
    rcases processStep_state_shape embedOk chainOk docs st with h | ⟨vs, h⟩
    · left
      rw [h]
    · right
      rw [h]
      rfl
